import Mathlib

/-!
Shallow embedding of `src/banks_project.py`, an ETL script that scrapes a
table of the largest banks, converts the USD asset column into three other
currencies using a positional rate file, and persists the result to a CSV
file and an embedded SQL table.

Python strings are modelled as Lean `String` (operating on `List Char`),
Python floats as exact rationals `ℚ`, pandas DataFrames as Lean lists of
records, and fallible operations (IndexError, ValueError) as `Option`.
-/

set_option maxRecDepth 2000

namespace Banks

/-! ## String primitives (models of Python `str` methods) -/

/-- Model of Python `s.replace('\n', '')`: every newline character is removed. -/
def removeNewlines (s : String) : String :=
  ⟨s.data.filter (fun c => c != '\n')⟩

/-- Model of `df.replace(',', '', regex=True)` acting on one cell: every comma
character is removed from the string. -/
def stripCommas (s : String) : String :=
  ⟨s.data.filter (fun c => c != ',')⟩

/-- Whitespace trimming on a character list, both ends. -/
def trimWs (cs : List Char) : List Char :=
  ((cs.dropWhile Char.isWhitespace).reverse.dropWhile Char.isWhitespace).reverse

/-- Model of Python `s.strip()` with no argument: surrounding whitespace removed. -/
def pyStrip (s : String) : String :=
  ⟨trimWs s.data⟩

/-- Helper for `strFind`: first index (counting from `i`) where `pat` occurs,
or `-1` when it does not occur. -/
def strFindAux (pat : List Char) : List Char → ℤ → ℤ
  | [], i => if pat.isEmpty then i else -1
  | c :: cs, i => if pat.isPrefixOf (c :: cs) then i else strFindAux pat cs (i + 1)

/-- Model of Python `s.find(pat)` on strings: index of the first occurrence of
the substring `pat`, or `-1` when absent. -/
def strFind (s pat : String) : ℤ :=
  strFindAux pat.data s.data 0

/-! ## Extractor (`extract`, lines 37-67) -/

/-- A data cell (`<td>`) of a table row: its flattened text, and whether the
cell contains an embedded `<a>` link (the latter is never consulted by the
code, which operates on `.text` only). -/
structure Cell where
  text : String
  hasLink : Bool
deriving DecidableEq, Repr

/-- A table row, as the list of its `<td>` data cells (`row.find_all('td')`;
header rows made of `<th>` cells yield the empty list). -/
abbrev Row := List Cell

/-- A raw extracted record: `INITIAL_ATTRIBUTES = ['Name', 'TA_USD_Billion']`,
both held as scraped text. -/
structure RawRecord where
  Name : String
  TA_USD_Billion : String
deriving DecidableEq, Repr

/-- The loop body of `extract` (lines 46-65).  `count` is the number of records
accepted so far; the loop breaks once `count >= 10`.  A row with no data cells
is skipped; `cell_data[1]` and `cell_data[2]` are then read (an out-of-bounds
access is `none`, modelling IndexError); the row is skipped when
`not bank.find('a')`, i.e. when the cleaned name text has the substring `a` at
index 0; otherwise the record is appended. -/
def processRows : List Row → ℕ → Option (List RawRecord)
  | [], _ => some []
  | r :: rs, count =>
    if 10 ≤ count then
      some []
    else if r.isEmpty then
      processRows rs count
    else
      match r.get? 1, r.get? 2 with
      | some c1, some c2 =>
        let bank := pyStrip (removeNewlines c1.text)
        let assets := removeNewlines c2.text
        if strFind bank "a" = 0 then
          processRows rs count
        else
          (processRows rs (count + 1)).map (fun rest => ⟨bank, assets⟩ :: rest)
      | _, _ => none

/-- Model of `extract(url, attributes)` (lines 37-67), applied to the rows of
the first `tbody` of the fetched page.  Returns `none` when the loop raises. -/
def extract (rows : List Row) : Option (List RawRecord) :=
  processRows rows 0

/-- The predicate the code actually uses to accept a row: it has a cell at
index 1 and at index 2, and the cleaned text of cell 1 does not place the
substring `a` at index 0 (the misused `bank.find('a')` truthiness test). -/
def qualifies (r : Row) : Bool :=
  match r.get? 1, r.get? 2 with
  | some c1, some _ => strFind (pyStrip (removeNewlines c1.text)) "a" ≠ 0
  | _, _ => false

/-- The record built from a qualifying row. -/
def mkRecord (r : Row) : RawRecord :=
  ⟨pyStrip (removeNewlines ((r.get? 1).getD ⟨"", false⟩).text),
   removeNewlines ((r.get? 2).getD ⟨"", false⟩).text⟩

/-! ## Float parsing (model of Python `float(str)`) -/

/-- Numeric value of a decimal digit character. -/
def charVal (c : Char) : ℕ :=
  c.toNat - 48

/-- Split a character list into its longest digit prefix and the rest. -/
def grabDigits : List Char → List Char × List Char
  | [] => ([], [])
  | c :: cs =>
    if c.isDigit then
      let p := grabDigits cs
      (c :: p.1, p.2)
    else
      ([], c :: cs)

/-- Value of a big-endian digit string. -/
def digitsVal (ds : List Char) : ℕ :=
  ds.foldl (fun acc c => acc * 10 + charVal c) 0

/-- Exponent digits: the whole remaining input must be a non-empty digit run. -/
def parseExpDigits (cs : List Char) : Option ℤ :=
  let p := grabDigits cs
  if p.1.isEmpty || !p.2.isEmpty then none else some (digitsVal p.1 : ℤ)

/-- Optionally signed exponent after `e` or `E`. -/
def parseExp : List Char → Option ℤ
  | '+' :: cs => parseExpDigits cs
  | '-' :: cs => (parseExpDigits cs).map Neg.neg
  | cs => parseExpDigits cs

/-- After the mantissa: end of input, or an exponent part. -/
def pyFloatTail (mant : ℚ) : List Char → Option ℚ
  | [] => some mant
  | 'e' :: cs => (parseExp cs).map (fun z => mant * (10 : ℚ) ^ z)
  | 'E' :: cs => (parseExp cs).map (fun z => mant * (10 : ℚ) ^ z)
  | _ => none

/-- Unsigned mantissa: digits, optionally a point and more digits; at least one
digit overall. -/
def pyFloatBody (cs : List Char) : Option ℚ :=
  let ip := grabDigits cs
  match ip.2 with
  | '.' :: rest =>
    let fp := grabDigits rest
    if ip.1.isEmpty && fp.1.isEmpty then
      none
    else
      pyFloatTail ((digitsVal ip.1 : ℚ) + (digitsVal fp.1 : ℚ) / 10 ^ fp.1.length) fp.2
  | rest =>
    if ip.1.isEmpty then none else pyFloatTail (digitsVal ip.1 : ℚ) rest

/-- At most one leading sign character. -/
def pyFloatSigned (cs : List Char) : Option ℚ :=
  match cs with
  | c :: rest =>
    if c = '+' then pyFloatBody rest
    else if c = '-' then (pyFloatBody rest).map Neg.neg
    else pyFloatBody cs
  | [] => pyFloatBody []

/-- Model of Python `float(s)` on decimal notation (optional surrounding
whitespace, optional sign, digits with optional point and optional exponent),
with the result an exact rational.  The special spellings `inf` and `nan` and
digit-group underscores are outside the model, as is binary-float rounding. -/
def pyFloat (s : String) : Option ℚ :=
  pyFloatSigned (trimWs s.data)

/-! ## Rounding (model of `np.round(x, 2)`) -/

/-- Floor of a rational, computed by Euclidean division of the numerator by the
(positive) denominator. -/
def qfloor (q : ℚ) : ℤ :=
  q.num.ediv (q.den : ℤ)

/-- Round to the nearest integer, ties to even (the IEEE mode `np.round` uses,
idealised over exact rationals). -/
def halfEven (q : ℚ) : ℤ :=
  if q - (qfloor q : ℚ) < 1 / 2 then qfloor q
  else if 1 / 2 < q - (qfloor q : ℚ) then qfloor q + 1
  else if (qfloor q).emod 2 = 0 then qfloor q
  else qfloor q + 1

/-- Model of `np.round(x, 2)`: round to 2 decimal places, ties to even. -/
def round2 (q : ℚ) : ℚ :=
  (halfEven (q * 100) : ℚ) / 100

/-! ## Transformer (`transform`, lines 70-84) -/

/-- A final record: `FINAL_ATTRIBUTES`, the name plus four numeric columns, in
the column order the DataFrame ends up with (USD, then GBP, EUR, INR). -/
structure FinalRecord where
  Name : String
  TA_USD_Billion : ℚ
  TA_GBP_Billion : ℚ
  TA_EUR_Billion : ℚ
  TA_INR_Billion : ℚ
deriving DecidableEq, Repr

/-- Explicit-state model of the in-place
`df.replace(',', '', regex=True, inplace=True)` (line 77): the values the
caller's records hold after `transform` returns.  Commas are removed from
every text cell, the `Name` column included. -/
def transformMutate (df : List RawRecord) : List RawRecord :=
  df.map (fun r => ⟨stripCommas r.Name, stripCommas r.TA_USD_Billion⟩)

/-- Model of `df.astype(TA_USD_Billion = float)` (line 78): coerce the asset
column; `none` models the ValueError raised on a non-numeric cell. -/
def astypeFloat : List RawRecord → Option (List (String × ℚ))
  | [] => some []
  | r :: rs =>
    match pyFloat r.TA_USD_Billion, astypeFloat rs with
    | some v, some rest => some ((r.Name, v) :: rest)
    | _, _ => none

/-- Model of `transform(df, rates)` (lines 70-84).  `rates` is the rate file as
already parsed by `pd.read_csv` into (label, numeric rate) rows; the three
rates are read positionally (`iloc[0,1]` = EUR, `iloc[1,1]` = GBP,
`iloc[2,1]` = INR), `none` modelling the IndexError when fewer than 3 rows
exist.  Commas are then stripped in place from all cells, the asset column is
coerced to float, and the three derived columns are appended. -/
def transform (df : List RawRecord) (rates : List (String × ℚ)) :
    Option (List FinalRecord) :=
  match rates.get? 0, rates.get? 1, rates.get? 2 with
  | some rowEur, some rowGbp, some rowInr =>
    (astypeFloat (transformMutate df)).map (fun l =>
      l.map (fun p =>
        ⟨p.1, p.2, round2 (p.2 * rowGbp.2), round2 (p.2 * rowEur.2),
          round2 (p.2 * rowInr.2)⟩))
  | _, _, _ => none

/-! ## Flat-file loader (`load_to_csv`, lines 87-89) and its re-read -/

/-- The five column names, `FINAL_ATTRIBUTES` (lines 17-20). -/
def FINAL_ATTRIBUTES : List String :=
  ["Name", "TA_USD_Billion", "TA_GBP_Billion", "TA_EUR_Billion", "TA_INR_Billion"]

/-- Decimal digit character for a value below 10. -/
def digitChar (d : ℕ) : Char :=
  Char.ofNat (48 + d)

/-- Big-endian decimal digits of a natural number, fuel-recursive so that it
reduces definitionally. -/
def natDigitsAux : ℕ → ℕ → List Char
  | 0, _ => []
  | fuel + 1, n =>
    if n < 10 then [digitChar n] else natDigitsAux fuel (n / 10) ++ [digitChar (n % 10)]

/-- Big-endian decimal digits of a natural number (`0` renders as `0`). -/
def natDigits (n : ℕ) : List Char :=
  natDigitsAux (n + 1) n

/-- Smallest exponent `k` with `d ∣ 10 ^ k`, searched up to `d`; `none` when
the denominator has a prime factor other than 2 and 5. -/
def decExp (d : ℕ) : Option ℕ :=
  (List.range (d + 1)).find? (fun k => decide (d ∣ 10 ^ k))

/-- Left-pad a digit string with zeros to length `k`. -/
def padZeros (k : ℕ) (ds : List Char) : List Char :=
  List.replicate (k - ds.length) '0' ++ ds

/-- Decimal text of a rational whose denominator divides a power of 10 (every
numeric cell the pipeline writes has this shape); the defensive fallback for
other denominators is the empty string. -/
def renderQ (q : ℚ) : String :=
  match decExp q.den with
  | none => ""
  | some k =>
    let t := (10 ^ k / q.den : ℕ)
    let a := (q.num * (t : ℤ)).natAbs
    ⟨(if q.num < 0 then ['-'] else []) ++
      natDigits (a / 10 ^ k) ++ '.' :: padZeros k (natDigits (a % 10 ^ k))⟩

/-- Model of `load_to_csv(df, filename)` (lines 87-89), i.e.
`df.to_csv(filename, index=False)`: the flat file as a list of cell rows — the
header row (no index column) followed by one row per record in column order,
numeric cells in decimal notation. -/
def load_to_csv (df : List FinalRecord) : List (List String) :=
  FINAL_ATTRIBUTES ::
    df.map (fun r =>
      [r.Name, renderQ r.TA_USD_Billion, renderQ r.TA_GBP_Billion,
        renderQ r.TA_EUR_Billion, renderQ r.TA_INR_Billion])

/-- Parse one data row of the flat file back into a record. -/
def parseRow : List String → Option FinalRecord
  | [n, a, b, c, d] =>
    match pyFloat a, pyFloat b, pyFloat c, pyFloat d with
    | some va, some vb, some vc, some vd => some ⟨n, va, vb, vc, vd⟩
    | _, _, _, _ => none
  | _ => none

/-- Parse every data row, failing if any row fails. -/
def parseRows : List (List String) → Option (List FinalRecord)
  | [] => some []
  | row :: rest =>
    match parseRow row, parseRows rest with
    | some r, some l => some (r :: l)
    | _, _ => none

/-- Model of re-reading the flat file with `pd.read_csv`: the first row is the
header, each later row yields one record with the numeric columns parsed as
floats. -/
def read_csv (rows : List (List String)) : Option (List FinalRecord) :=
  match rows with
  | header :: body => if header = FINAL_ATTRIBUTES then parseRows body else none
  | [] => none

/-- A rational is exactly representable in decimal:
its denominator divides a power of 10. -/
abbrev DecRepr (q : ℚ) : Prop :=
  q.den ∣ 10 ^ q.den

/-! ## Relational loader (`load_to_db`, lines 92-94) -/

/-- The embedded database: a map from table name to the table's rows. -/
abbrev Database := List (String × List FinalRecord)

/-- Model of `load_to_db(df, table, connection)` (lines 92-94), i.e.
`df.to_sql(table, connection, if_exists='replace', index=False)`: any prior
table of that name is dropped and the records become the table's full
contents. -/
def load_to_db (df : List FinalRecord) (table : String) (db : Database) : Database :=
  (table, df) :: db.filter (fun p => p.1 != table)

/-- Rows of a named table. -/
def getTable (db : Database) (table : String) : Option (List FinalRecord) :=
  (db.find? (fun p => p.1 == table)).map (fun p => p.2)

/-! ## Lemmas about the extractor -/

theorem processRows_spec (rows : List Row) :
    ∀ count : ℕ, (∀ r ∈ rows, r = [] ∨ 3 ≤ r.length) →
      processRows rows count =
        some (((rows.filter qualifies).take (10 - count)).map mkRecord) := by
  induction rows with
  | nil => intro count _; simp [processRows]
  | cons r rs ih =>
    intro count hw
    have hw' : ∀ x ∈ rs, x = [] ∨ 3 ≤ x.length := fun x hx =>
      hw x (List.mem_cons_of_mem r hx)
    by_cases hc : 10 ≤ count
    · have h0 : 10 - count = 0 := by omega
      simp [processRows, hc, h0]
    · rcases hw r (List.mem_cons_self r rs) with hnil | hlen
      · subst hnil
        simpa [processRows, hc, qualifies, List.filter_cons] using ih count hw'
      · rcases r with _ | ⟨c0, _ | ⟨c1, _ | ⟨c2, r3⟩⟩⟩
        · simp at hlen
        · simp at hlen
        · simp at hlen
        · by_cases hq : strFind (pyStrip (removeNewlines c1.text)) "a" = 0
          · have hqf : qualifies (c0 :: c1 :: c2 :: r3) = false := by
              simp [qualifies, hq]
            simpa [processRows, hc, hq, hqf, List.filter_cons] using ih count hw'
          · have hqt : qualifies (c0 :: c1 :: c2 :: r3) = true := by
              simp [qualifies, hq]
            have h10 : 10 - count = (10 - (count + 1)) + 1 := by omega
            simp [processRows, hc, hq, hqt, List.filter_cons, ih (count + 1) hw',
              h10, List.take_succ_cons, mkRecord]

theorem processRows_mem :
    ∀ (rows : List Row) (count : ℕ) (out : List RawRecord),
      processRows rows count = some out →
      ∀ rec ∈ out, ∃ t1 t2 : String,
        rec = ⟨pyStrip (removeNewlines t1), removeNewlines t2⟩ := by
  intro rows
  induction rows with
  | nil =>
    intro count out h rec hrec
    simp [processRows] at h
    subst h
    simp at hrec
  | cons r rs ih =>
    intro count out h rec hrec
    by_cases hc : 10 ≤ count
    · simp [processRows, hc] at h
      subst h
      simp at hrec
    · rcases r with _ | ⟨c0, _ | ⟨c1, r2⟩⟩
      · simp [processRows, hc] at h
        exact ih count out h rec hrec
      · simp [processRows, hc] at h
      · rcases r2 with _ | ⟨c2, r3⟩
        · simp [processRows, hc] at h
        · by_cases hq : strFind (pyStrip (removeNewlines c1.text)) "a" = 0
          · simp [processRows, hc, hq] at h
            exact ih count out h rec hrec
          · simp [processRows, hc, hq] at h
            rcases h with ⟨rest, hrest, hout⟩
            subst hout
            rcases List.mem_cons.mp hrec with hhead | htail
            · exact ⟨c1.text, c2.text, hhead⟩
            · exact ih (count + 1) rest hrest rec htail

/-! ## Lemmas about whitespace trimming -/

theorem dropWhile_eq_self_of_all {α} (p : α → Bool) (l : List α)
    (h : ∀ c ∈ l, p c = false) : l.dropWhile p = l := by
  cases l with
  | nil => rfl
  | cons c cs => simp [List.dropWhile_cons, h c (List.mem_cons_self c cs)]

theorem trimWs_eq_self (l : List Char)
    (h : ∀ c ∈ l, c.isWhitespace = false) : trimWs l = l := by
  unfold trimWs
  rw [dropWhile_eq_self_of_all _ _ h,
    dropWhile_eq_self_of_all _ _ (fun c hc => h c (List.mem_reverse.mp hc)),
    List.reverse_reverse]

theorem mem_trimWs {c : Char} {l : List Char} (h : c ∈ trimWs l) : c ∈ l := by
  unfold trimWs at h
  have h1 := (List.dropWhile_suffix (l := (l.dropWhile Char.isWhitespace).reverse)
    Char.isWhitespace).mem (List.mem_reverse.mp h)
  exact (List.dropWhile_suffix Char.isWhitespace).mem (List.mem_reverse.mp h1)

theorem dropWhile_idem (p : α → Bool) (l : List α) :
    (l.dropWhile p).dropWhile p = l.dropWhile p := by
  induction l with
  | nil => rfl
  | cons c cs ih =>
    by_cases hp : p c
    · simp [List.dropWhile_cons, hp, ih]
    · simp [List.dropWhile_cons, hp]

theorem trimWs_idem (l : List Char) : trimWs (trimWs l) = trimWs l := by
  set p := Char.isWhitespace with hp
  have key : ∀ m : List Char, m.dropWhile p = m →
      (m.reverse.dropWhile p).reverse.dropWhile p = (m.reverse.dropWhile p).reverse := by
    intro m hm
    rcases hd : (m.reverse.dropWhile p).reverse with _ | ⟨c, cs⟩
    · rfl
    · have hpref : (m.reverse.dropWhile p).reverse <+: m := by
        have := List.dropWhile_suffix (l := m.reverse) p
        have := List.IsSuffix.reverse this
        simpa using this
      rcases hpref with ⟨t, ht⟩
      rw [hd] at ht
      have hc : p c = false := by
        rcases hm' : m with _ | ⟨c', cs'⟩
        · rw [hm'] at ht; simp at ht
        · have hcc : c = c' := by
            rw [hm'] at ht
            exact (List.cons_eq_cons.mp ht).1
          subst hcc
          by_cases hpc : p c
          · exfalso
            rw [hm', List.dropWhile_cons, if_pos hpc] at hm
            have : cs'.length + 1 ≤ cs'.length := by
              calc cs'.length + 1 = (c :: cs').length := by simp
                _ = (cs'.dropWhile p).length := by rw [hm]
                _ ≤ cs'.length := List.Sublist.length_le (List.dropWhile_sublist p)
            omega
          · simpa using hpc
      rw [List.dropWhile_cons, if_neg (by simp [hc])]
  unfold trimWs
  have h1 : (l.dropWhile p).dropWhile p = l.dropWhile p := dropWhile_idem p l
  have h2 := key (l.dropWhile p) h1
  rw [h2]
  congr 1
  rw [List.reverse_reverse]
  exact (dropWhile_idem p _)

theorem pyStrip_idem (s : String) : pyStrip (pyStrip s) = pyStrip s := by
  simp [pyStrip, trimWs_idem]

theorem mem_removeNewlines {c : Char} {s : String}
    (h : c ∈ (removeNewlines s).data) : c ≠ '\n' := by
  have := List.mem_filter.mp h
  simpa using this.2

/-! ## Claim theorems about the extractor -/

/-- C1: the code contradicts the spec here.  A row whose name cell contains no
embedded link is nevertheless included in the output: the misused
`bank.find('a')` runs on the cell text, so the only rows excluded are those
whose cleaned name text starts with the letter `a`. -/
theorem extract_includes_row_without_link :
    extract [[⟨"1", false⟩, ⟨"Bank B", false⟩, ⟨"100", false⟩]] =
      some [⟨"Bank B", "100"⟩] ∧
    (⟨"Bank B", false⟩ : Cell).hasLink = false := by
  decide

/-- C3: for every page whose rows are well-formed (a row has either no data
cells or at least the three the code indexes), the Extractor returns exactly
the first 10 qualifying rows of the table, in page order; the output length is
10, or the number of qualifying rows when fewer exist. -/
theorem extract_returns_first_ten_qualifying (rows : List Row)
    (hw : ∀ r ∈ rows, r = [] ∨ 3 ≤ r.length) :
    extract rows = some (((rows.filter qualifies).take 10).map mkRecord) ∧
    ∀ out, extract rows = some out →
      out.length = min 10 (rows.filter qualifies).length := by
  have h := processRows_spec rows 0 hw
  constructor
  · simpa [extract] using h
  · intro out hout
    rw [extract, h] at hout
    have hbody : out = ((rows.filter qualifies).take 10).map mkRecord := by
      simpa using hout.symm
    subst hbody
    simp [List.length_take]

/-- Concrete page for the C3 witness: 13 well-formed rows, 12 of them
qualifying (row 4 is skipped because its name text starts with `a`). -/
def wrows : List Row :=
  [[⟨"1", false⟩, ⟨"B1", true⟩, ⟨"10", false⟩],
   [⟨"2", false⟩, ⟨"B2", true⟩, ⟨"20", false⟩],
   [⟨"3", false⟩, ⟨"B3", true⟩, ⟨"30", false⟩],
   [⟨"4", false⟩, ⟨"alpha Bank", true⟩, ⟨"40", false⟩],
   [⟨"5", false⟩, ⟨"B5", true⟩, ⟨"50", false⟩],
   [⟨"6", false⟩, ⟨"B6", true⟩, ⟨"60", false⟩],
   [⟨"7", false⟩, ⟨"B7", true⟩, ⟨"70", false⟩],
   [⟨"8", false⟩, ⟨"B8", true⟩, ⟨"80", false⟩],
   [⟨"9", false⟩, ⟨"B9", true⟩, ⟨"90", false⟩],
   [⟨"10", false⟩, ⟨"B10", true⟩, ⟨"100", false⟩],
   [⟨"11", false⟩, ⟨"B11", true⟩, ⟨"110", false⟩],
   [⟨"12", false⟩, ⟨"B12", true⟩, ⟨"120", false⟩],
   [⟨"13", false⟩, ⟨"B13", true⟩, ⟨"130", false⟩]]

theorem extract_returns_first_ten_qualifying_witness :
    (∀ r ∈ wrows, r = [] ∨ 3 ≤ r.length) ∧
    (wrows.filter qualifies).length = 12 ∧
    (extract wrows = some (((wrows.filter qualifies).take 10).map mkRecord) ∧
      ∀ out, extract wrows = some out →
        out.length = min 10 (wrows.filter qualifies).length) :=
  ⟨by decide, by decide, extract_returns_first_ten_qualifying wrows (by decide)⟩

/-- C4 is false as stated: the asset text of a selected row keeps its
surrounding whitespace, because line 55 applies `.replace('\n', '')` but no
`.strip()`. -/
theorem extract_keeps_asset_whitespace :
    extract [[⟨"1", false⟩, ⟨"Bank B", false⟩, ⟨" 100 ", false⟩]] =
      some [⟨"Bank B", " 100 "⟩] ∧
    pyStrip " 100 " ≠ " 100 " := by
  decide

/-- C4 (amended): in every record the Extractor returns, the bank name is
stripped of embedded newlines and of surrounding whitespace, while the raw
asset text is stripped of embedded newlines only. -/
theorem extract_text_cleaning (rows : List Row) (out : List RawRecord)
    (h : extract rows = some out) :
    ∀ rec ∈ out,
      (∀ c ∈ rec.Name.data, c ≠ '\n') ∧
      pyStrip rec.Name = rec.Name ∧
      (∀ c ∈ rec.TA_USD_Billion.data, c ≠ '\n') := by
  intro rec hrec
  obtain ⟨t1, t2, hrec'⟩ := processRows_mem rows 0 out h rec hrec
  subst hrec'
  refine ⟨?_, pyStrip_idem _, ?_⟩
  · intro c hc
    exact mem_removeNewlines (mem_trimWs hc)
  · intro c hc
    exact mem_removeNewlines hc

theorem extract_text_cleaning_witness :
    extract [[⟨"1", false⟩, ⟨"\n Bank B \n", false⟩, ⟨" 100\n ", false⟩]] =
      some [⟨"Bank B", " 100 "⟩] ∧
    (∀ rec ∈ [(⟨"Bank B", " 100 "⟩ : RawRecord)],
      (∀ c ∈ rec.Name.data, c ≠ '\n') ∧
      pyStrip rec.Name = rec.Name ∧
      (∀ c ∈ rec.TA_USD_Billion.data, c ≠ '\n')) :=
  ⟨by decide,
    extract_text_cleaning [[⟨"1", false⟩, ⟨"\n Bank B \n", false⟩, ⟨" 100\n ", false⟩]]
      [⟨"Bank B", " 100 "⟩] (by decide)⟩

/-- C5 is false as stated: a row with one data cell (so fewer than the three
cells the code indexes) makes the Extractor fault with an IndexError rather
than qualify or be skipped. -/
theorem extract_faults_on_short_row :
    1 ≤ ([⟨"only", false⟩] : Row).length ∧
    extract [[⟨"only", false⟩]] = none := by
  decide

/-- C5 (amended): the Extractor runs without fault on every page in which each
row either has no data cells (it is skipped) or has at least three data cells;
a row with one or two data cells faults. -/
theorem extract_safe_on_wide_rows (rows : List Row)
    (hw : ∀ r ∈ rows, r = [] ∨ 3 ≤ r.length) : (extract rows).isSome := by
  rw [extract, processRows_spec rows 0 hw]
  rfl

theorem extract_safe_on_wide_rows_witness :
    (∀ r ∈ [[(⟨"1", false⟩ : Cell), ⟨"B", false⟩, ⟨"2", false⟩]],
      r = [] ∨ 3 ≤ r.length) ∧
    (extract [[⟨"1", false⟩, ⟨"B", false⟩, ⟨"2", false⟩]]).isSome :=
  ⟨by decide, extract_safe_on_wide_rows _ (by decide)⟩

/-! ## Lemmas about the transformer -/

theorem transform_three (df : List RawRecord) (p0 p1 p2 : String × ℚ)
    (rest : List (String × ℚ)) :
    transform df (p0 :: p1 :: p2 :: rest) =
      (astypeFloat (transformMutate df)).map (fun l =>
        l.map (fun p =>
          ⟨p.1, p.2, round2 (p.2 * p1.2), round2 (p.2 * p0.2),
            round2 (p.2 * p2.2)⟩)) :=
  rfl

theorem astypeFloat_eq_none_iff (l : List RawRecord) :
    astypeFloat l = none ↔ ∃ r ∈ l, pyFloat r.TA_USD_Billion = none := by
  induction l with
  | nil => simp [astypeFloat]
  | cons r rs ih =>
    rcases hp : pyFloat r.TA_USD_Billion with _ | v
    · simp only [astypeFloat, hp]
      exact iff_of_true trivial ⟨r, List.mem_cons_self r rs, hp⟩
    · rcases ha : astypeFloat rs with _ | rest
      · simp only [astypeFloat, hp, ha]
        refine iff_of_true trivial ?_
        obtain ⟨x, hx, hxn⟩ := ih.mp ha
        exact ⟨x, List.mem_cons_of_mem r hx, hxn⟩
      · simp only [astypeFloat, hp, ha]
        constructor
        · intro hfalse; cases hfalse
        · rintro ⟨x, hx, hxn⟩
          rcases List.mem_cons.mp hx with rfl | hx'
          · rw [hp] at hxn; cases hxn
          · have : astypeFloat rs = none := ih.mpr ⟨x, hx', hxn⟩
            rw [ha] at this; cases this

theorem astypeFloat_names :
    ∀ (l : List RawRecord) (v : List (String × ℚ)),
      astypeFloat l = some v → v.map Prod.fst = l.map RawRecord.Name := by
  intro l
  induction l with
  | nil =>
    intro v h
    simp only [astypeFloat] at h
    cases h
    simp
  | cons r rs ih =>
    intro v h
    simp only [astypeFloat] at h
    rcases hp : pyFloat r.TA_USD_Billion with _ | x <;> rw [hp] at h
    · cases h
    · rcases ha : astypeFloat rs with _ | rest <;> rw [ha] at h
      · cases h
      · cases h
        simp [ih rest ha]

theorem transform_mem_fields (df : List RawRecord) (rates : List (String × ℚ))
    (out : List FinalRecord) (pe pg pi : String × ℚ)
    (h : transform df rates = some out)
    (h0 : rates.get? 0 = some pe) (h1 : rates.get? 1 = some pg)
    (h2 : rates.get? 2 = some pi) :
    ∀ rec ∈ out,
      rec.TA_GBP_Billion = round2 (rec.TA_USD_Billion * pg.2) ∧
      rec.TA_EUR_Billion = round2 (rec.TA_USD_Billion * pe.2) ∧
      rec.TA_INR_Billion = round2 (rec.TA_USD_Billion * pi.2) := by
  rcases rates with _ | ⟨q0, _ | ⟨q1, _ | ⟨q2, rest⟩⟩⟩
  · cases h0
  · cases h1
  · cases h2
  · have he0 : q0 = pe := by simpa using h0
    have he1 : q1 = pg := by simpa using h1
    have he2 : q2 = pi := by simpa using h2
    subst he0; subst he1; subst he2
    rw [transform_three] at h
    rcases Option.map_eq_some'.mp h with ⟨v, _, hout⟩
    subst hout
    intro rec hrec
    rcases List.mem_map.mp hrec with ⟨p, _, hrec'⟩
    subst hrec'
    exact ⟨rfl, rfl, rfl⟩

theorem transform_eq_none_iff (df : List RawRecord) (rates : List (String × ℚ)) :
    transform df rates = none ↔
      rates.length < 3 ∨ ∃ r ∈ df, pyFloat (stripCommas r.TA_USD_Billion) = none := by
  rcases rates with _ | ⟨q0, _ | ⟨q1, _ | ⟨q2, rest⟩⟩⟩
  · exact iff_of_true rfl (Or.inl (by simp))
  · exact iff_of_true rfl (Or.inl (by simp))
  · exact iff_of_true rfl (Or.inl (by simp))
  · rw [transform_three, Option.map_eq_none']
    rw [astypeFloat_eq_none_iff]
    constructor
    · rintro ⟨x, hx, hxn⟩
      rcases List.mem_map.mp hx with ⟨s, hs, hsx⟩
      subst hsx
      exact Or.inr ⟨s, hs, hxn⟩
    · rintro (hlen | ⟨r, hr, hpf⟩)
      · simp at hlen; omega
      · exact ⟨⟨stripCommas r.Name, stripCommas r.TA_USD_Billion⟩,
          List.mem_map_of_mem _ hr, hpf⟩

theorem round2_nonneg (q : ℚ) (h : 0 ≤ q) : 0 ≤ round2 q := by
  have h100 : (0 : ℚ) ≤ q * 100 := by positivity
  have hf : 0 ≤ qfloor (q * 100) :=
    Int.ediv_nonneg (Rat.num_nonneg.mpr h100) (by positivity)
  have hhe : 0 ≤ halfEven (q * 100) := by
    unfold halfEven
    split_ifs <;> omega
  unfold round2
  apply div_nonneg _ (by norm_num)
  exact_mod_cast hhe

/-! ## Claim theorems about the transformer -/

/-- C2: every derived currency field equals `round2` of the USD value times the
row-positional rate (row 0 = EUR, row 1 = GBP, row 2 = INR). -/
theorem transform_currency_fields (df : List RawRecord)
    (rates : List (String × ℚ)) (out : List FinalRecord) (pe pg pi : String × ℚ)
    (h : transform df rates = some out)
    (h0 : rates.get? 0 = some pe) (h1 : rates.get? 1 = some pg)
    (h2 : rates.get? 2 = some pi) :
    ∀ rec ∈ out,
      rec.TA_GBP_Billion = round2 (rec.TA_USD_Billion * pg.2) ∧
      rec.TA_EUR_Billion = round2 (rec.TA_USD_Billion * pe.2) ∧
      rec.TA_INR_Billion = round2 (rec.TA_USD_Billion * pi.2) :=
  transform_mem_fields df rates out pe pg pi h h0 h1 h2

theorem transform_currency_fields_witness :
    transform [⟨"Bank A", "1,000.00"⟩]
        [("EUR", 93 / 100), ("GBP", 4 / 5), ("INR", 821 / 10)] =
      some [⟨"Bank A", 1000, 800, 930, 82100⟩] ∧
    ∀ rec ∈ [(⟨"Bank A", 1000, 800, 930, 82100⟩ : FinalRecord)],
      rec.TA_GBP_Billion = round2 (rec.TA_USD_Billion * (4 / 5)) ∧
      rec.TA_EUR_Billion = round2 (rec.TA_USD_Billion * (93 / 100)) ∧
      rec.TA_INR_Billion = round2 (rec.TA_USD_Billion * (821 / 10)) :=
  ⟨by with_unfolding_all rfl,
    transform_currency_fields [⟨"Bank A", "1,000.00"⟩]
      [("EUR", 93 / 100), ("GBP", 4 / 5), ("INR", 821 / 10)]
      [⟨"Bank A", 1000, 800, 930, 82100⟩]
      ("EUR", 93 / 100) ("GBP", 4 / 5) ("INR", 821 / 10)
      (by with_unfolding_all rfl) rfl rfl rfl⟩

/-- C6: the Transformer fails exactly when the rate table has fewer than 3
rows or some record's asset text is non-numeric after comma-stripping; on
every other input it returns normally. -/
theorem transform_failure_iff (df : List RawRecord) (rates : List (String × ℚ)) :
    transform df rates = none ↔
      rates.length < 3 ∨ ∃ r ∈ df, pyFloat (stripCommas r.TA_USD_Billion) = none :=
  transform_eq_none_iff df rates

/-- C7 is false as stated: an input record with negative asset text produces a
final record all four of whose asset fields are negative. -/
theorem transform_negative_record :
    transform [⟨"B", "-5"⟩] [("EUR", 1), ("GBP", 1), ("INR", 1)] =
      some [⟨"B", -5, -5, -5, -5⟩] ∧
    ¬ (0 : ℚ) ≤ -5 := by
  constructor
  · with_unfolding_all rfl
  · with_unfolding_all decide

/-- C7 (amended): when every rate is non-negative, every output record whose
USD field is non-negative has all four asset fields non-negative. -/
theorem transform_fields_nonneg (df : List RawRecord)
    (rates : List (String × ℚ)) (out : List FinalRecord)
    (h : transform df rates = some out) (hr : ∀ p ∈ rates, 0 ≤ p.2) :
    ∀ rec ∈ out, 0 ≤ rec.TA_USD_Billion →
      0 ≤ rec.TA_USD_Billion ∧ 0 ≤ rec.TA_GBP_Billion ∧
      0 ≤ rec.TA_EUR_Billion ∧ 0 ≤ rec.TA_INR_Billion := by
  intro rec hrec hu
  rcases rates with _ | ⟨q0, _ | ⟨q1, _ | ⟨q2, rest⟩⟩⟩
  · simp [transform] at h
  · simp [transform] at h
  · simp [transform] at h
  · obtain ⟨hg, he, hi⟩ :=
      transform_mem_fields df (q0 :: q1 :: q2 :: rest) out q0 q1 q2 h rfl rfl rfl
        rec hrec
    refine ⟨hu, ?_, ?_, ?_⟩
    · rw [hg]; exact round2_nonneg _ (mul_nonneg hu (hr q1 (by simp)))
    · rw [he]; exact round2_nonneg _ (mul_nonneg hu (hr q0 (by simp)))
    · rw [hi]; exact round2_nonneg _ (mul_nonneg hu (hr q2 (by simp)))

theorem transform_fields_nonneg_witness :
    transform [⟨"Bank A", "1,000.00"⟩]
        [("EUR", 93 / 100), ("GBP", 4 / 5), ("INR", 821 / 10)] =
      some [⟨"Bank A", 1000, 800, 930, 82100⟩] ∧
    ∀ rec ∈ [(⟨"Bank A", 1000, 800, 930, 82100⟩ : FinalRecord)],
      0 ≤ rec.TA_USD_Billion →
        0 ≤ rec.TA_USD_Billion ∧ 0 ≤ rec.TA_GBP_Billion ∧
        0 ≤ rec.TA_EUR_Billion ∧ 0 ≤ rec.TA_INR_Billion :=
  ⟨by with_unfolding_all rfl,
    transform_fields_nonneg [⟨"Bank A", "1,000.00"⟩]
      [("EUR", 93 / 100), ("GBP", 4 / 5), ("INR", 821 / 10)]
      [⟨"Bank A", 1000, 800, 930, 82100⟩]
      (by with_unfolding_all rfl) (by with_unfolding_all decide)⟩

/-- C10: `transform` rewrites its input in place before converting: after the
call, every text cell of the caller's records — the `Name` column included —
has its commas removed, and the output Name column is the comma-stripped input
Name column. -/
theorem transform_strips_name_commas :
    (∀ (df : List RawRecord) (rates : List (String × ℚ)) (out : List FinalRecord),
      transform df rates = some out →
        out.map (fun r => r.Name) = df.map (fun r => stripCommas r.Name)) ∧
    transformMutate [⟨"Bank, A", "1,000"⟩] = [⟨"Bank A", "1000"⟩] ∧
    [(⟨"Bank A", "1000"⟩ : RawRecord)] ≠ [⟨"Bank, A", "1,000"⟩] := by
  refine ⟨?_, by decide, by decide⟩
  intro df rates out h
  rcases rates with _ | ⟨q0, _ | ⟨q1, _ | ⟨q2, rest⟩⟩⟩
  · simp [transform] at h
  · simp [transform] at h
  · simp [transform] at h
  · rw [transform_three] at h
    rcases Option.map_eq_some'.mp h with ⟨v, hv, hout⟩
    subst hout
    have hn := astypeFloat_names (transformMutate df) v hv
    calc (v.map fun p =>
            (⟨p.1, p.2, round2 (p.2 * q1.2), round2 (p.2 * q0.2),
              round2 (p.2 * q2.2)⟩ : FinalRecord)).map (fun r => r.Name)
        = v.map Prod.fst := by simp [List.map_map]
      _ = (transformMutate df).map RawRecord.Name := hn
      _ = df.map (fun r => stripCommas r.Name) := by
          simp [transformMutate, List.map_map]

theorem transform_strips_name_commas_witness :
    List.map (fun r => r.Name)
        [(⟨"Bank A", 1000, 1000, 1000, 1000⟩ : FinalRecord)] =
      List.map (fun r => stripCommas r.Name) [(⟨"Bank, A", "1,000"⟩ : RawRecord)] :=
  transform_strips_name_commas.1 [⟨"Bank, A", "1,000"⟩]
    [("EUR", 1), ("GBP", 1), ("INR", 1)]
    [⟨"Bank A", 1000, 1000, 1000, 1000⟩] (by with_unfolding_all rfl)

/-! ## C8: the relational loader replaces, hence is idempotent -/

/-- C8: loading the same records twice leaves the database exactly as loading
them once does, and after a load the table holds exactly the loaded records —
replace semantics, not append. -/
theorem load_to_db_idempotent :
    (∀ (df : List FinalRecord) (table : String) (db : Database),
      load_to_db df table (load_to_db df table db) = load_to_db df table db) ∧
    (∀ (df : List FinalRecord) (table : String) (db : Database),
      getTable (load_to_db df table db) table = some df) := by
  constructor
  · intro df table db
    simp [load_to_db, List.filter_cons, List.filter_filter]
  · intro df table db
    simp [getTable, load_to_db]

/-! ## Decimal digit strings: printing and parsing invert each other -/

theorem charVal_digitChar : ∀ d : ℕ, d < 10 →
    charVal (digitChar d) = d ∧ (digitChar d).isDigit = true := by
  decide

theorem isDigit_not_ws (c : Char) (h : c.isDigit = true) :
    c.isWhitespace = false := by
  by_contra hw
  rw [Bool.not_eq_false] at hw
  simp only [Char.isWhitespace, Bool.or_eq_true, decide_eq_true_eq] at hw
  rcases hw with ((rfl | rfl) | rfl) | rfl <;> exact absurd h (by decide)

theorem isDigit_ne_sign (c : Char) (h : c.isDigit = true) :
    c ≠ '+' ∧ c ≠ '-' := by
  constructor <;> rintro rfl <;> exact absurd h (by decide)

theorem natDigitsAux_ne_nil (fuel n : ℕ) (h : n < fuel) :
    natDigitsAux fuel n ≠ [] := by
  cases fuel with
  | zero => omega
  | succ fuel =>
    rw [natDigitsAux]
    by_cases h10 : n < 10
    · simp [h10]
    · simp [h10]

theorem natDigitsAux_all_digits :
    ∀ fuel n, ∀ c ∈ natDigitsAux fuel n, c.isDigit = true := by
  intro fuel
  induction fuel with
  | zero => intro n c hc; simp [natDigitsAux] at hc
  | succ fuel ih =>
    intro n c hc
    rw [natDigitsAux] at hc
    by_cases h10 : n < 10
    · rw [if_pos h10] at hc
      simp at hc
      subst hc
      exact (charVal_digitChar n h10).2
    · rw [if_neg h10] at hc
      rcases List.mem_append.mp hc with hc | hc
      · exact ih _ c hc
      · simp at hc
        subst hc
        exact (charVal_digitChar _ (Nat.mod_lt n (by norm_num))).2

theorem digitsVal_append_singleton (ds : List Char) (c : Char) :
    digitsVal (ds ++ [c]) = digitsVal ds * 10 + charVal c := by
  simp [digitsVal, List.foldl_append]

theorem natDigitsAux_val : ∀ fuel n, n < fuel →
    digitsVal (natDigitsAux fuel n) = n := by
  intro fuel
  induction fuel with
  | zero => intro n h; omega
  | succ fuel ih =>
    intro n h
    rw [natDigitsAux]
    by_cases h10 : n < 10
    · rw [if_pos h10]
      have := (charVal_digitChar n h10).1
      simp [digitsVal, this]
    · rw [if_neg h10, digitsVal_append_singleton]
      have hdiv : n / 10 < fuel := by
        have : n / 10 < n := Nat.div_lt_self (by omega) (by norm_num)
        omega
      rw [ih (n / 10) hdiv, (charVal_digitChar (n % 10) (Nat.mod_lt _ (by norm_num))).1]
      omega

theorem natDigitsAux_length : ∀ fuel n k, n < fuel → 1 ≤ k → n < 10 ^ k →
    (natDigitsAux fuel n).length ≤ k := by
  intro fuel
  induction fuel with
  | zero => intro n k h; omega
  | succ fuel ih =>
    intro n k hf hk hnk
    rw [natDigitsAux]
    by_cases h10 : n < 10
    · rw [if_pos h10]; simpa using hk
    · rw [if_neg h10, List.length_append]
      have hk2 : 2 ≤ k := by
        rcases Nat.lt_or_ge k 2 with hlt | hge
        · exfalso
          have hk1 : k = 1 := by omega
          rw [hk1, pow_one] at hnk
          omega
        · exact hge
      have hdiv : n / 10 < fuel := by
        have : n / 10 < n := Nat.div_lt_self (by omega) (by norm_num)
        omega
      have hpow : n / 10 < 10 ^ (k - 1) := by
        apply Nat.div_lt_of_lt_mul
        have hsplit : 10 ^ (k - 1) * 10 = 10 ^ k := by
          rw [← pow_succ]
          congr 1
          omega
        omega
      have := ih (n / 10) (k - 1) hdiv (by omega) hpow
      simp only [List.length_singleton]
      omega

theorem natDigits_val (n : ℕ) : digitsVal (natDigits n) = n :=
  natDigitsAux_val _ _ (by omega)

theorem natDigits_ne_nil (n : ℕ) : natDigits n ≠ [] :=
  natDigitsAux_ne_nil _ _ (by omega)

theorem natDigits_all_digits (n : ℕ) : ∀ c ∈ natDigits n, c.isDigit = true :=
  natDigitsAux_all_digits _ _

theorem natDigits_length_le (n k : ℕ) (hk : 1 ≤ k) (h : n < 10 ^ k) :
    (natDigits n).length ≤ k :=
  natDigitsAux_length _ _ _ (by omega) hk h

theorem grabDigits_append (ds rest : List Char)
    (hds : ∀ c ∈ ds, c.isDigit = true)
    (hrest : rest = [] ∨ ∃ c cs, rest = c :: cs ∧ c.isDigit = false) :
    grabDigits (ds ++ rest) = (ds, rest) := by
  induction ds with
  | nil =>
    simp only [List.nil_append]
    rcases hrest with rfl | ⟨c, cs, rfl, hc⟩
    · rfl
    · simp [grabDigits, hc]
  | cons d ds ih =>
    have hd : d.isDigit = true := hds d (List.mem_cons_self d ds)
    have ih' := ih (fun c hc => hds c (List.mem_cons_of_mem d hc))
    simp [grabDigits, hd, ih']

theorem digitsVal_replicate_zero (m : ℕ) (ds : List Char) :
    digitsVal (List.replicate m '0' ++ ds) = digitsVal ds := by
  unfold digitsVal
  rw [List.foldl_append]
  congr 1
  induction m with
  | zero => rfl
  | succ m ih =>
    rw [List.replicate_succ, List.foldl_cons]
    have h0 : (0 : ℕ) * 10 + charVal '0' = 0 := by decide
    rw [h0, ih]

theorem digitsVal_padZeros (k : ℕ) (ds : List Char) :
    digitsVal (padZeros k ds) = digitsVal ds :=
  digitsVal_replicate_zero _ _

theorem padZeros_length (k : ℕ) (ds : List Char) (h : ds.length ≤ k) :
    (padZeros k ds).length = k := by
  simp [padZeros]
  omega

theorem padZeros_all_digits (k : ℕ) (ds : List Char)
    (h : ∀ c ∈ ds, c.isDigit = true) :
    ∀ c ∈ padZeros k ds, c.isDigit = true := by
  intro c hc
  rcases List.mem_append.mp hc with hc | hc
  · rw [List.eq_of_mem_replicate hc]; decide
  · exact h c hc

theorem decExp_exists (d : ℕ) (h : d ∣ 10 ^ d) : ∃ k, decExp d = some k := by
  unfold decExp
  rcases hfind : (List.range (d + 1)).find? (fun k => decide (d ∣ 10 ^ k)) with _ | k
  · rw [List.find?_eq_none] at hfind
    exact absurd (by simpa using h)
      (hfind d (List.mem_range.mpr (by omega)))
  · exact ⟨k, rfl⟩

theorem decExp_dvd (d k : ℕ) (h : decExp d = some k) : d ∣ 10 ^ k := by
  have := List.find?_some h
  simpa using this

theorem num_mul_div_pow_eq (q : ℚ) (k t : ℕ)
    (htden : t * q.den = 10 ^ k) (ht0 : t ≠ 0) :
    (q.num : ℚ) * (t : ℚ) / (10 : ℚ) ^ k = q := by
  have h10 : ((10 : ℚ)) ^ k = (t : ℚ) * (q.den : ℚ) := by
    have := congrArg (Nat.cast : ℕ → ℚ) htden
    push_cast at this
    linarith
  rw [h10, mul_comm (t : ℚ), mul_div_mul_right _ _ (by exact_mod_cast ht0)]
  exact Rat.num_div_den q

theorem pyFloatSigned_eq_body (cs : List Char) (c : Char) (rest : List Char)
    (hcs : cs = c :: rest) (h1 : c ≠ '+') (h2 : c ≠ '-') :
    pyFloatSigned cs = pyFloatBody cs := by
  subst hcs
  simp only [pyFloatSigned, if_neg h1, if_neg h2]

theorem pyFloat_renderQ (q : ℚ) (h : DecRepr q) : pyFloat (renderQ q) = some q := by
  obtain ⟨k, hk⟩ := decExp_exists q.den h
  have hdvd : q.den ∣ 10 ^ k := decExp_dvd _ _ hk
  set t : ℕ := 10 ^ k / q.den with ht
  have htden : t * q.den = 10 ^ k := Nat.div_mul_cancel hdvd
  have ht0 : t ≠ 0 := by
    intro h0
    rw [h0, zero_mul] at htden
    exact absurd htden.symm (pow_ne_zero k (by norm_num))
  set a : ℕ := (q.num * (t : ℤ)).natAbs with ha
  set ip : List Char := natDigits (a / 10 ^ k) with hip
  set fp : List Char := padZeros k (natDigits (a % 10 ^ k)) with hfp
  have hipd : ∀ c ∈ ip, c.isDigit = true := natDigits_all_digits _
  have hfpd : ∀ c ∈ fp, c.isDigit = true :=
    padZeros_all_digits _ _ (natDigits_all_digits _)
  have hipne : ip ≠ [] := natDigits_ne_nil _
  have hrq : renderQ q =
      ⟨(if q.num < 0 then ['-'] else []) ++ ip ++ '.' :: fp⟩ := by
    rw [renderQ, hk]
  have hnws : ∀ c ∈ (if q.num < 0 then ['-'] else []) ++ ip ++ '.' :: fp,
      c.isWhitespace = false := by
    intro c hc
    rcases List.mem_append.mp hc with hc | hc
    · rcases List.mem_append.mp hc with hc | hc
      · by_cases hn : q.num < 0
        · rw [if_pos hn, List.mem_singleton] at hc
          subst hc
          decide
        · rw [if_neg hn] at hc
          simp at hc
      · exact isDigit_not_ws c (hipd c hc)
    · rcases List.mem_cons.mp hc with rfl | hc
      · decide
      · exact isDigit_not_ws c (hfpd c hc)
  have hbody : pyFloatBody (ip ++ '.' :: fp) =
      some ((digitsVal ip : ℚ) + (digitsVal fp : ℚ) / 10 ^ fp.length) := by
    have hg1 : grabDigits (ip ++ '.' :: fp) = (ip, '.' :: fp) :=
      grabDigits_append _ _ hipd (Or.inr ⟨'.', fp, rfl, by decide⟩)
    have hg2 : grabDigits fp = (fp, []) := by
      simpa using grabDigits_append fp [] hfpd (Or.inl rfl)
    have hipe : ip.isEmpty = false := by
      rcases hipx : ip with _ | ⟨c, cs⟩
      · exact absurd hipx hipne
      · rfl
    simp only [pyFloatBody, hg1, hg2, hipe, Bool.false_and, Bool.false_eq_true,
      if_false, pyFloatTail]
  have hvip : digitsVal ip = a / 10 ^ k := natDigits_val _
  have hvfp : digitsVal fp = a % 10 ^ k := by
    rw [hfp, digitsVal_padZeros, natDigits_val]
  have hmant : (digitsVal ip : ℚ) + (digitsVal fp : ℚ) / 10 ^ fp.length =
      (a : ℚ) / 10 ^ k := by
    by_cases hk0 : k = 0
    · subst hk0
      have hmod : a % 10 ^ 0 = 0 := by simp [Nat.mod_one]
      rw [hvip, hvfp, hmod]
      simp
    · have hk1 : 1 ≤ k := by omega
      have hlen : fp.length = k :=
        padZeros_length _ _ (natDigits_length_le _ _ hk1 (Nat.mod_lt _ (by positivity)))
      rw [hvip, hvfp, hlen]
      have hda := Nat.div_add_mod a (10 ^ k)
      have hcast := congrArg (Nat.cast : ℕ → ℚ) hda
      push_cast at hcast
      have hpow0 : ((10 : ℚ) ^ k) ≠ 0 := by positivity
      field_simp
      linarith
  have habs : (a : ℚ) = |(q.num : ℚ)| * (t : ℚ) := by
    rw [ha]
    push_cast [Int.cast_natAbs]
    rw [abs_mul]
    congr 1
    exact abs_of_nonneg (by positivity)
  simp only [pyFloat, hrq]
  rw [trimWs_eq_self _ hnws]
  by_cases hneg : q.num < 0
  · rw [if_pos hneg, List.singleton_append, List.cons_append]
    have hsig : pyFloatSigned ('-' :: (ip ++ '.' :: fp)) =
        (pyFloatBody (ip ++ '.' :: fp)).map Neg.neg := rfl
    rw [hsig, hbody]
    simp only [Option.map_some']
    congr 1
    rw [hmant, habs, abs_of_neg (show (q.num : ℚ) < 0 by exact_mod_cast hneg)]
    rw [show -(q.num : ℚ) * (t : ℚ) / (10 : ℚ) ^ k =
      -((q.num : ℚ) * (t : ℚ) / (10 : ℚ) ^ k) by ring]
    rw [num_mul_div_pow_eq q k t htden ht0, neg_neg]
  · rw [if_neg hneg, List.nil_append]
    rcases hipx : ip with _ | ⟨c, cs⟩
    · exact absurd hipx hipne
    · have hcd : c.isDigit = true := hipd c (hipx ▸ List.mem_cons_self c cs)
      obtain ⟨hcp, hcm⟩ := isDigit_ne_sign c hcd
      have hsig : pyFloatSigned (ip ++ '.' :: fp) = pyFloatBody (ip ++ '.' :: fp) :=
        pyFloatSigned_eq_body (ip ++ '.' :: fp) c (cs ++ '.' :: fp)
          (by rw [hipx, List.cons_append]) hcp hcm
      rw [← hipx, hsig, hbody]
      congr 1
      rw [hmant, habs,
        abs_of_nonneg (show (0 : ℚ) ≤ (q.num : ℚ) by exact_mod_cast not_lt.mp hneg)]
      exact num_mul_div_pow_eq q k t htden ht0

theorem parseRows_render (df : List FinalRecord)
    (h : ∀ r ∈ df, DecRepr r.TA_USD_Billion ∧ DecRepr r.TA_GBP_Billion ∧
      DecRepr r.TA_EUR_Billion ∧ DecRepr r.TA_INR_Billion) :
    parseRows (df.map (fun r =>
      [r.Name, renderQ r.TA_USD_Billion, renderQ r.TA_GBP_Billion,
        renderQ r.TA_EUR_Billion, renderQ r.TA_INR_Billion])) = some df := by
  induction df with
  | nil => rfl
  | cons r rs ih =>
    obtain ⟨h1, h2, h3, h4⟩ := h r (List.mem_cons_self r rs)
    have ih' := ih (fun x hx => h x (List.mem_cons_of_mem r hx))
    have hrow : parseRow [r.Name, renderQ r.TA_USD_Billion, renderQ r.TA_GBP_Billion,
        renderQ r.TA_EUR_Billion, renderQ r.TA_INR_Billion] = some r := by
      rcases r with ⟨n, u, g, e, i⟩
      simp only [parseRow, pyFloat_renderQ _ h1, pyFloat_renderQ _ h2,
        pyFloat_renderQ _ h3, pyFloat_renderQ _ h4]
    simp only [List.map_cons, parseRows, hrow, ih']

/-- C9: serializing final records through the flat file (header row included,
no index column) and re-reading yields field-for-field equal records, for
every record sequence whose numeric fields are exactly representable in
decimal — as every value the pipeline writes is. -/
theorem load_to_csv_round_trip (df : List FinalRecord)
    (h : ∀ r ∈ df, DecRepr r.TA_USD_Billion ∧ DecRepr r.TA_GBP_Billion ∧
      DecRepr r.TA_EUR_Billion ∧ DecRepr r.TA_INR_Billion) :
    read_csv (load_to_csv df) = some df := by
  simp only [load_to_csv, read_csv, if_pos rfl]
  exact parseRows_render df h

theorem load_to_csv_round_trip_witness :
    (∀ r ∈ [(⟨"Bank A", 1000, 800, 930, 82100⟩ : FinalRecord)],
      DecRepr r.TA_USD_Billion ∧ DecRepr r.TA_GBP_Billion ∧
      DecRepr r.TA_EUR_Billion ∧ DecRepr r.TA_INR_Billion) ∧
    read_csv (load_to_csv [⟨"Bank A", 1000, 800, 930, 82100⟩]) =
      some [⟨"Bank A", 1000, 800, 930, 82100⟩] :=
  ⟨by with_unfolding_all decide,
    load_to_csv_round_trip [⟨"Bank A", 1000, 800, 930, 82100⟩]
      (by with_unfolding_all decide)⟩

end Banks
